import Mathlib

/-!
Shallow embedding of the sign-detection core of the `raise-your-sign`
repository: the monotonic `Timer` (`src/quiz/utils/timer_utils.py`),
the hold-time debounce step `update_hold_timer` and the color detection
`detect_color` (`src/quiz/cv/quiz_controller_cvcli.py`), and the image
pipeline of `src/quiz/cv/cv_utils.py` together with the older duplicate
`QuizControllerVision.get_mask` (`src/quiz/defaults/quiz_controller_vision.py`).

Pure Python code is translated into Lean functions.  Monotonic time is
modelled as `ℚ`; every method that reads `time.monotonic()` takes the
current time `now` as an explicit argument.  The OpenCV primitives the
code calls (`cvtColor`, `GaussianBlur`, `Sobel`, `normalize`,
`morphologyEx`, `findContours`, `contourArea`, `drawContours`,
`medianBlur`) are treated as parameters, gathered in a `CV` structure;
the pixel-level operations whose semantics the claims depend on
(`threshold` with `THRESH_BINARY`, `inRange`, `addWeighted`,
`bitwise_and` with a mask, `np.sum`) are defined concretely from the
documented OpenCV/NumPy behaviour.  Python exceptions are modelled with
`Except`.
-/

namespace RaiseYourSign

/-- The `Timer` class of `timer_utils.py`: a fixed `duration` and an
optional monotonic start instant (`_start`, `none` when stopped). -/
structure Timer where
  duration : ℚ
  start : Option ℚ
  deriving Repr, DecidableEq

/-- `Timer.__init__(duration)`: the timer begins stopped. -/
def Timer.init (duration : ℚ) : Timer := ⟨duration, none⟩

/-- `Timer.start()`: record the current monotonic time as the start point. -/
def Timer.startAt (t : Timer) (now : ℚ) : Timer := { t with start := some now }

/-- `Timer.reset()`: an alias for `start()`. -/
def Timer.reset (t : Timer) (now : ℚ) : Timer := t.startAt now

/-- `Timer.stop()`: clear the start time. -/
def Timer.stop (t : Timer) : Timer := { t with start := none }

/-- `Timer.running()`: `self._start is not None`. -/
def Timer.running (t : Timer) : Bool := t.start.isSome

/-- `Timer.expired()`: `self._start is not None and
time.monotonic() - self._start >= self.duration`. -/
def Timer.expired (t : Timer) (now : ℚ) : Bool :=
  match t.start with
  | none => false
  | some s => decide (t.duration ≤ now - s)

/-- `Timer.remaining()`: `max(0.0, duration - elapsed)`, `0.0` when stopped. -/
def Timer.remaining (t : Timer) (now : ℚ) : ℚ :=
  match t.start with
  | none => 0
  | some s => max 0 (t.duration - (now - s))

/-- `Timer.progress()`: `min(1.0, elapsed / duration)`, `0.0` when stopped. -/
def Timer.progress (t : Timer) (now : ℚ) : ℚ :=
  match t.start with
  | none => 0
  | some s => min 1 ((now - s) / t.duration)

/-- `QuizControllerCVCLI.update_hold_timer`.  The Python method mutates
`timer` in place through `stop` / `reset`; here the updated timer is
returned alongside the `(current_color_index, validated)` result pair. -/
def update_hold_timer (detected_index current_color_index : Option ℕ)
    (timer : Timer) (now : ℚ) : (Option ℕ × Bool) × Timer :=
  if detected_index = none then
    ((none, false), timer.stop)
  else if detected_index ≠ current_color_index then
    ((detected_index, false), timer.reset now)
  else if timer.expired now then
    ((current_color_index, true), timer)
  else
    ((current_color_index, false), timer)

/-- One call to a mutating `Timer` method, tagged with the monotonic
time at which it happens. -/
inductive TimerOp where
  | start (now : ℚ)
  | reset (now : ℚ)
  | stop
  deriving Repr

/-- Apply one `Timer` method call. -/
def Timer.applyOp (t : Timer) : TimerOp → Timer
  | .start now => t.startAt now
  | .reset now => t.reset now
  | .stop => t.stop

/-- Apply a sequence of `Timer` method calls in order. -/
def Timer.applyOps (t : Timer) (ops : List TimerOp) : Timer :=
  ops.foldl Timer.applyOp t

/-- The per-turn detection loop of `QuizControllerCVCLI.run_quiz`,
restricted to its debounce content: feed every frame's
`(detected_index, frame time)` through `update_hold_timer` and stop
(the loop does `break`) at the first validated answer, returning the
confirmed index together with the time of the confirming frame. -/
def runUntilValidated :
    List (Option ℕ × ℚ) → Option ℕ → Timer → Option (Option ℕ × ℚ)
  | [], _, _ => none
  | (d, t) :: rest, cur, tm =>
    match update_hold_timer d cur tm t with
    | ((cur2, true), _) => some (cur2, t)
    | ((cur2, false), tm2) => runUntilValidated rest cur2 tm2

/-- The same loop, returning every `(current_color_index, validated)`
output up to and including the confirming frame. -/
def runTurn :
    List (Option ℕ × ℚ) → Option ℕ → Timer → List (Option ℕ × Bool)
  | [], _, _ => []
  | (d, t) :: rest, cur, tm =>
    match update_hold_timer d cur tm t with
    | ((cur2, true), _) => [(cur2, true)]
    | ((cur2, false), tm2) => (cur2, false) :: runTurn rest cur2 tm2

/-- Claim C1: `update_hold_timer` implements exactly the specified
transition table: on `None` it returns `(None, False)` and stops the
timer; on a detection different from the tracked candidate it returns
`(d, False)` and restarts the timer from zero; on a detection equal to
the tracked candidate it returns `(d, timer.expired())` without
touching the timer. -/
theorem update_hold_timer_table (d current : Option ℕ) (timer : Timer) (now : ℚ) :
    (d = none →
      update_hold_timer d current timer now = ((none, false), timer.stop)) ∧
    (d ≠ none → d ≠ current →
      update_hold_timer d current timer now = ((d, false), timer.reset now) ∧
      (timer.reset now).start = some now) ∧
    (∀ c : ℕ, d = some c → current = some c →
      update_hold_timer d current timer now =
        ((some c, timer.expired now), timer)) := by
  refine ⟨fun hd => ?_, fun hd hne => ⟨?_, rfl⟩, fun c hd hc => ?_⟩
  · subst hd; rfl
  · simp [update_hold_timer, hd, hne]
  · subst hd; subst hc
    cases h : timer.expired now <;> simp [update_hold_timer, h]

/-- Witness for C1: a fresh detection of color 1 while nothing is
tracked restarts the timer at the current instant. -/
theorem update_hold_timer_table_witness :
    update_hold_timer (some 1) none (Timer.init 2) 5 =
      ((some 1, false), Timer.reset (Timer.init 2) 5) ∧
    (Timer.reset (Timer.init 2) 5).start = some 5 :=
  (update_hold_timer_table (some 1) none (Timer.init 2) 5).2.1
    (by decide) (by decide)

/-- `start`, `reset` and `stop` never change the configured duration. -/
theorem applyOps_duration (t : Timer) (ops : List TimerOp) :
    (t.applyOps ops).duration = t.duration := by
  induction ops generalizing t with
  | nil => rfl
  | cons op ops ih =>
    have h : Timer.applyOps t (op :: ops) = Timer.applyOps (t.applyOp op) ops := rfl
    rw [h, ih]
    cases op <;> rfl

/-- Claim C9: after every sequence of `start` / `reset` / `stop` calls
and for every current monotonic time: `running()` holds exactly when a
start instant is set; `expired()` is true only while running with
elapsed time at least the configured duration; `progress()` is `0.0`
when not running, and otherwise starts at `0.0`, stays nonnegative,
increases monotonically with elapsed time and is clamped at `1.0`. -/
theorem timer_invariants (dur : ℚ) (ops : List TimerOp) (now later : ℚ)
    (hdur : 0 < dur) :
    ((Timer.init dur).applyOps ops).running
        = ((Timer.init dur).applyOps ops).start.isSome ∧
    (((Timer.init dur).applyOps ops).expired now = true →
      ((Timer.init dur).applyOps ops).running = true ∧
      ∃ s, ((Timer.init dur).applyOps ops).start = some s ∧ dur ≤ now - s) ∧
    (((Timer.init dur).applyOps ops).running = false →
      ((Timer.init dur).applyOps ops).progress now = 0) ∧
    (∀ s, ((Timer.init dur).applyOps ops).start = some s →
      ((Timer.init dur).applyOps ops).progress s = 0 ∧
      (s ≤ now → 0 ≤ ((Timer.init dur).applyOps ops).progress now) ∧
      (now ≤ later →
        ((Timer.init dur).applyOps ops).progress now
          ≤ ((Timer.init dur).applyOps ops).progress later) ∧
      ((Timer.init dur).applyOps ops).progress now ≤ 1) := by
  have hd : ((Timer.init dur).applyOps ops).duration = dur :=
    applyOps_duration (Timer.init dur) ops
  set t := (Timer.init dur).applyOps ops with ht
  refine ⟨rfl, ?_, ?_, ?_⟩
  · intro hexp
    cases h : t.start with
    | none => rw [Timer.expired, h] at hexp; exact absurd hexp (by simp)
    | some s =>
      refine ⟨by simp [Timer.running, h], s, rfl, ?_⟩
      rw [Timer.expired, h] at hexp
      rw [← hd]
      exact of_decide_eq_true hexp
  · intro hrun
    have h : t.start = none := by
      cases h : t.start with
      | none => rfl
      | some s => rw [Timer.running, h] at hrun; simp at hrun
    rw [Timer.progress, h]
  · intro s hs
    have hp : ∀ x : ℚ, t.progress x = min 1 ((x - s) / dur) := by
      intro x; rw [Timer.progress, hs, hd]
    refine ⟨?_, ?_, ?_, ?_⟩
    · rw [hp]; simp
    · intro hsn
      rw [hp]
      exact le_min (by norm_num) (div_nonneg (by linarith) hdur.le)
    · intro hnl
      rw [hp, hp]
      refine min_le_min le_rfl ?_
      exact div_le_div_of_nonneg_right (by linarith) hdur.le
    · rw [hp]; exact min_le_left _ _

/-- Witness for C9: a timer of duration 2 started at time 0 has
nondecreasing, clamped progress at times 1 and 3. -/
theorem timer_invariants_witness :
    0 ≤ ((Timer.init 2).applyOps [TimerOp.start 0]).progress 1 ∧
    ((Timer.init 2).applyOps [TimerOp.start 0]).progress 1
      ≤ ((Timer.init 2).applyOps [TimerOp.start 0]).progress 3 ∧
    ((Timer.init 2).applyOps [TimerOp.start 0]).progress 1 ≤ 1 := by
  have h := (timer_invariants 2 [TimerOp.start 0] 1 3 (by norm_num)).2.2.2 0 rfl
  exact ⟨h.2.1 (by norm_num), h.2.2.1 (by norm_num), h.2.2.2⟩

/-- While the same candidate stays detected, `update_hold_timer` leaves
the timer untouched and validates exactly when it has expired. -/
theorem update_hold_timer_same (c : ℕ) (tm : Timer) (t : ℚ) :
    update_hold_timer (some c) (some c) tm t = ((some c, tm.expired t), tm) := by
  cases h : tm.expired t <;> simp [update_hold_timer, h]

/-- Expiry test of a timer whose start instant is `s`. -/
theorem expired_mk (dur s t : ℚ) :
    Timer.expired ⟨dur, some s⟩ t = decide (s + dur ≤ t) := by
  show decide (dur ≤ t - s) = decide (s + dur ≤ t)
  rw [decide_eq_decide]
  constructor <;> intro h <;> linarith

/-- The time of the first frame at which a timer started at `s` with
duration `dur` has expired. -/
def firstExpiry (s dur : ℚ) : List ℚ → Option ℚ
  | [] => none
  | t :: ts => if s + dur ≤ t then some t else firstExpiry s dur ts

theorem firstExpiry_spec (s dur : ℚ) (ts : List ℚ) (tc : ℚ)
    (h : firstExpiry s dur ts = some tc) : tc ∈ ts ∧ s + dur ≤ tc := by
  induction ts with
  | nil => exact absurd h (by simp [firstExpiry])
  | cons t ts ih =>
    rw [firstExpiry] at h
    by_cases ht : s + dur ≤ t
    · rw [if_pos ht] at h
      obtain rfl : t = tc := by injection h
      exact ⟨List.mem_cons_self t ts, ht⟩
    · rw [if_neg ht] at h
      obtain ⟨h1, h2⟩ := ih h
      exact ⟨List.mem_cons_of_mem t h1, h2⟩

theorem firstExpiry_isSome (s dur : ℚ) (ts : List ℚ)
    (h : ∃ t ∈ ts, s + dur ≤ t) : ∃ tc, firstExpiry s dur ts = some tc := by
  induction ts with
  | nil => simp at h
  | cons t ts ih =>
    rw [firstExpiry]
    by_cases ht : s + dur ≤ t
    · exact ⟨t, if_pos ht⟩
    · rw [if_neg ht]
      apply ih
      obtain ⟨u, hu, hle⟩ := h
      rcases List.mem_cons.mp hu with rfl | hu2
      · exact absurd hle ht
      · exact ⟨u, hu2, hle⟩

/-- Once the machine tracks candidate `c` with a timer started at `s`,
a run of frames constantly detecting `c` confirms exactly at the first
frame whose time has reached `s + dur`. -/
theorem runUntilValidated_const (c : ℕ) (dur s : ℚ) (ts : List ℚ) :
    runUntilValidated (ts.map fun t => (some c, t)) (some c) ⟨dur, some s⟩
      = (firstExpiry s dur ts).map fun t => (some c, t) := by
  induction ts with
  | nil => rfl
  | cons t ts ih =>
    simp only [List.map_cons, runUntilValidated, update_hold_timer_same,
      expired_mk, firstExpiry]
    by_cases ht : s + dur ≤ t
    · simp [ht]
    · simp [ht, ih]

/-- Under the same conditions, the emitted outputs carry exactly one
`validated = True` when some frame time reaches `s + dur`, none
otherwise. -/
theorem runTurn_const_count (c : ℕ) (dur s : ℚ) (ts : List ℚ) :
    (runTurn (ts.map fun t => (some c, t)) (some c) ⟨dur, some s⟩).countP
        (fun p => p.2)
      = if ∃ t ∈ ts, s + dur ≤ t then 1 else 0 := by
  induction ts with
  | nil => simp [runTurn]
  | cons t ts ih =>
    simp only [List.map_cons, runTurn, update_hold_timer_same, expired_mk]
    by_cases ht : s + dur ≤ t
    · simp [ht]
    · have hiff : (∃ u ∈ t :: ts, s + dur ≤ u) ↔ ∃ u ∈ ts, s + dur ≤ u := by
        constructor
        · rintro ⟨u, hu, hle⟩
          rcases List.mem_cons.mp hu with rfl | hu2
          · exact absurd hle ht
          · exact ⟨u, hu2, hle⟩
        · rintro ⟨u, hu, hle⟩
          exact ⟨u, List.mem_cons_of_mem t hu, hle⟩
      simp only [ht, decide_False, List.countP_cons]
      simp only [hiff] at *
      simpa using ih

theorem runTurn_const_mem (c : ℕ) (dur s : ℚ) (ts : List ℚ)
    (h : ∃ t ∈ ts, s + dur ≤ t) :
    (some c, true) ∈ runTurn (ts.map fun t => (some c, t)) (some c)
      ⟨dur, some s⟩ := by
  induction ts with
  | nil => simp at h
  | cons t ts ih =>
    simp only [List.map_cons, runTurn, update_hold_timer_same, expired_mk]
    by_cases ht : s + dur ≤ t
    · simp [ht]
    · simp only [ht, decide_False]
      apply List.mem_cons_of_mem
      apply ih
      obtain ⟨u, hu, hle⟩ := h
      rcases List.mem_cons.mp hu with rfl | hu2
      · exact absurd hle ht
      · exact ⟨u, hu2, hle⟩

/-- The first frame of a fresh run of candidate `c` resets the timer to
the frame time and does not validate. -/
theorem runUntilValidated_cons_fresh (c : ℕ) (dur t0 : ℚ)
    (rest : List (Option ℕ × ℚ)) :
    runUntilValidated ((some c, t0) :: rest) none (Timer.init dur)
      = runUntilValidated rest (some c) ⟨dur, some t0⟩ := by
  simp [runUntilValidated, update_hold_timer, Timer.init, Timer.reset,
    Timer.startAt]

theorem runTurn_cons_fresh (c : ℕ) (dur t0 : ℚ)
    (rest : List (Option ℕ × ℚ)) :
    runTurn ((some c, t0) :: rest) none (Timer.init dur)
      = (some c, false) :: runTurn rest (some c) ⟨dur, some t0⟩ := by
  simp [runTurn, update_hold_timer, Timer.init, Timer.reset, Timer.startAt]

/-- Claim C2: for a run of frames constantly detecting the same
candidate `c` from the initial untracked state, the per-turn loop
confirms `c` exactly once, at a frame whose time is at least the hold
duration after the first frame of the run; and a `None` frame makes the
machine forget any tracked candidate and stopped timer state, so the
measurement restarts from zero. -/
theorem debounce_liveness (c : ℕ) (dur t0 : ℚ) (ts : List ℚ)
    (hlive : ∃ t ∈ ts, t0 + dur ≤ t) :
    (∃ tc, runUntilValidated ((some c, t0) :: ts.map fun t => (some c, t))
        none (Timer.init dur) = some (some c, tc) ∧ t0 + dur ≤ tc ∧ tc ∈ ts) ∧
    (runTurn ((some c, t0) :: ts.map fun t => (some c, t)) none
        (Timer.init dur)).countP (fun p => p.2) = 1 ∧
    (some c, true) ∈ runTurn ((some c, t0) :: ts.map fun t => (some c, t))
        none (Timer.init dur) ∧
    (∀ (cur : Option ℕ) (tm : Timer) (tN : ℚ) (rest : List (Option ℕ × ℚ)),
      runUntilValidated ((none, tN) :: rest) cur tm
        = runUntilValidated rest none (Timer.init tm.duration)) := by
  refine ⟨?_, ?_, ?_, ?_⟩
  · rw [runUntilValidated_cons_fresh, runUntilValidated_const]
    obtain ⟨tc, htc⟩ := firstExpiry_isSome t0 dur ts hlive
    obtain ⟨hmem, hle⟩ := firstExpiry_spec t0 dur ts tc htc
    exact ⟨tc, by rw [htc]; rfl, hle, hmem⟩
  · rw [runTurn_cons_fresh]
    rw [List.countP_cons]
    simp only [decide_False]
    rw [runTurn_const_count, if_pos hlive]
    simp
  · rw [runTurn_cons_fresh]
    exact List.mem_cons_of_mem _ (runTurn_const_mem c dur t0 ts hlive)
  · intro cur tm tN rest
    simp [runUntilValidated, update_hold_timer, Timer.stop, Timer.init]

/-- Witness for C2: candidate 0, duration 2, first frame at time 0 and
further frames at times 1 and 3 confirm exactly at time 3. -/
theorem debounce_liveness_witness :
    ∃ tc, runUntilValidated
        ((some 0, (0 : ℚ)) :: [(1 : ℚ), 3].map fun t => (some 0, t))
        none (Timer.init 2) = some (some 0, tc) ∧
      (0 : ℚ) + 2 ≤ tc ∧ tc ∈ [(1 : ℚ), 3] :=
  (debounce_liveness 0 2 0 [1, 3] ⟨3, by norm_num, by norm_num⟩).1

/-! ## Image pipeline of `cv_utils.py` -/

/-- A matrix of pixels (row major), as the OpenCV / NumPy arrays. -/
abbrev Mat (α : Type) : Type := List (List α)

/-- The pixel at row `i`, column `j`, when it exists. -/
def matGet {α : Type} (m : Mat α) (i j : ℕ) : Option α :=
  (m.get? i).bind fun row => row.get? j

/-- The shape of a matrix: number of rows and length of every row. -/
def matShape {α : Type} (m : Mat α) : ℕ × List ℕ :=
  (m.length, m.map List.length)

/-- `np.zeros_like(m)`. -/
def zerosLike (m : Mat ℕ) : Mat ℕ :=
  m.map fun row => row.map fun _ => 0

/-- `np.ones(size, np.uint8)`. -/
def npOnes (size : ℕ × ℕ) : Mat ℕ :=
  List.replicate size.1 (List.replicate size.2 1)

/-- `int(np.sum(m))` on a `uint8` array (NumPy sums into a wide
accumulator, so no overflow is involved). -/
def npSum (m : Mat ℕ) : ℕ :=
  (m.map List.sum).sum

/-- `cv2.threshold(src, thresh, maxval, cv2.THRESH_BINARY)`: per the
OpenCV definition of `THRESH_BINARY`, `dst(x,y) = maxval` when
`src(x,y) > thresh` (strictly), else `0`. -/
def thresholdBinary (src : Mat ℕ) (thresh maxval : ℕ) : Mat ℕ :=
  src.map fun row => row.map fun p => if thresh < p then maxval else 0

/-- Python `max(xs, key=f)` on a non-empty list: the first element with
maximal key (a later element replaces the champion only when its key is
strictly greater).  `none` models the `ValueError` on an empty list. -/
def pyMaxBy {α : Type} (f : α → ℚ) : List α → Option α
  | [] => none
  | x :: xs => some (xs.foldl (fun best y => if f best < f y then y else best) x)

/-- Python `max(xs)` on a list of naturals; `none` models the
`ValueError` raised on an empty list. -/
def pyMax : List ℕ → Option ℕ
  | [] => none
  | x :: xs => some (xs.foldl max x)

/-- Python `xs.index(v)`: index of the first occurrence of `v` (the
callers below only invoke it when `v` is an element of `xs`). -/
def pyIndex (v : ℕ) : List ℕ → ℕ
  | [] => 0
  | x :: xs => if x = v then 0 else pyIndex v xs + 1

/-- `cv2.CV_32F`. -/
def CV_32F : ℤ := 5

/-- `cv2.MORPH_CLOSE`. -/
def MORPH_CLOSE : ℕ := 3

/-- The `MaskConfig` dataclass of `cv_utils.py`. -/
structure MaskConfig where
  gaussian_kernel_size : ℕ × ℕ
  gaussian_sigma : ℚ
  sobel_ddepth : ℤ
  edge_threshold : ℕ
  max_binary_value : ℕ
  morph_kernel_size : ℕ × ℕ
  morph_operation : ℕ
  min_contour_area : ℕ
  deriving Repr, DecidableEq

/-- The default field values of `MaskConfig` (`MaskConfig()`). -/
def MaskConfig.default : MaskConfig :=
  ⟨(5, 5), 0, CV_32F, 50, 255, (7, 7), MORPH_CLOSE, 5000⟩

/-- The `ColorRange` dataclass: inclusive lower and upper HSV bounds,
each an `(H, S, V)` triple. -/
structure ColorRange where
  lower : ℕ × ℕ × ℕ
  upper : ℕ × ℕ × ℕ
  deriving Repr, DecidableEq

/-- The `ColorDetectionConfig` dataclass of `cv_utils.py`. -/
structure ColorDetectionConfig where
  red1 : ColorRange
  red2 : ColorRange
  yellow : ColorRange
  green : ColorRange
  blue : ColorRange
  magenta : ColorRange
  min_color_area : ℕ
  blur_big_sign : ℕ
  blur_small_sign : ℕ
  deriving Repr, DecidableEq

/-- The default field values of `ColorDetectionConfig`
(`ColorDetectionConfig()`). -/
def ColorDetectionConfig.default : ColorDetectionConfig :=
  ⟨⟨(0, 170, 100), (6, 255, 255)⟩,
   ⟨(170, 170, 100), (180, 255, 255)⟩,
   ⟨(12, 90, 70), (30, 255, 255)⟩,
   ⟨(40, 100, 50), (80, 255, 255)⟩,
   ⟨(95, 150, 125), (115, 255, 255)⟩,
   ⟨(150, 135, 120), (170, 255, 255)⟩,
   30000, 7, 15⟩

/-- The OpenCV primitives called by the pipeline, kept as parameters:
`Pix` is the BGR pixel type, `FMat` the type of floating-point matrices
(Sobel output), `Contour` the contour representation returned by
`cv2.findContours`.  The flags fixed in the source (`RETR_EXTERNAL`,
`CHAIN_APPROX_SIMPLE`, `NORM_MINMAX`, `CV_8U`, the `1.0/1.0/0`
weights of `addWeighted`) are baked into the corresponding fields;
arguments the source passes from its configuration stay explicit. -/
structure CV (Pix FMat Contour : Type) where
  cvtColorGray : Mat Pix → Mat ℕ
  cvtColorHSV : Mat Pix → Mat (ℕ × ℕ × ℕ)
  gaussianBlur : Mat ℕ → ℕ × ℕ → ℚ → Mat ℕ
  sobel : Mat ℕ → ℤ → ℕ → ℕ → FMat
  sqrtMagnitude : FMat → FMat → FMat
  normalize : FMat → ℕ → ℕ → Mat ℕ
  morphologyEx : Mat ℕ → ℕ → Mat ℕ → Mat ℕ
  findContours : Mat ℕ → List Contour
  contourArea : Contour → ℚ
  drawContoursFill : Mat ℕ → Contour → ℕ → Mat ℕ
  medianBlur : Mat ℕ → ℕ → Mat ℕ

variable {Pix FMat Contour : Type}

/-- The stages of `get_sign_mask` up to the normalized gradient
magnitude (`mag_norm` in the source): grayscale conversion, Gaussian
blur, the two Sobel derivatives, `cv2.sqrt(gx ** 2 + gy ** 2)` and
`cv2.normalize(..., 0, max_binary_value, NORM_MINMAX, CV_8U)`. -/
def signMagNorm (cv : CV Pix FMat Contour) (image : Mat Pix)
    (config : MaskConfig) : Mat ℕ :=
  let gray_img := cv.cvtColorGray image
  let blurred_gray_img :=
    cv.gaussianBlur gray_img config.gaussian_kernel_size config.gaussian_sigma
  let gx := cv.sobel blurred_gray_img config.sobel_ddepth 1 0
  let gy := cv.sobel blurred_gray_img config.sobel_ddepth 0 1
  cv.normalize (cv.sqrtMagnitude gx gy) 0 config.max_binary_value

/-- The binarization stage of `get_sign_mask` (`threshold` in the
source): `cv2.threshold(mag_norm, edge_threshold, max_binary_value,
cv2.THRESH_BINARY)`. -/
def signThreshold (cv : CV Pix FMat Contour) (image : Mat Pix)
    (config : MaskConfig) : Mat ℕ :=
  thresholdBinary (signMagNorm cv image config)
    config.edge_threshold config.max_binary_value

/-- The morphological closing stage of `get_sign_mask` (`closing`). -/
def signClosing (cv : CV Pix FMat Contour) (image : Mat Pix)
    (config : MaskConfig) : Mat ℕ :=
  cv.morphologyEx (signThreshold cv image config) config.morph_operation
    (npOnes config.morph_kernel_size)

/-- The contours extracted from the closed edge image. -/
def signContours (cv : CV Pix FMat Contour) (image : Mat Pix)
    (config : MaskConfig) : List Contour :=
  cv.findContours (signClosing cv image config)

/-- `get_sign_mask` from `cv_utils.py`: reject an empty contour list
(`if not contours`), pick `max(contours, key=cv2.contourArea)`, reject
it when its area is `<= config.min_contour_area`, otherwise rasterize
it filled into a zeroed mask of the grayscale image's size. -/
def get_sign_mask (cv : CV Pix FMat Contour) (image : Mat Pix)
    (config : MaskConfig) : Option (Mat ℕ) :=
  match pyMaxBy cv.contourArea (signContours cv image config) with
  | none => none
  | some largest_contour =>
    if cv.contourArea largest_contour ≤ (config.min_contour_area : ℚ) then
      none
    else
      some (cv.drawContoursFill (zerosLike (cv.cvtColorGray image))
        largest_contour config.max_binary_value)

/-- `QuizControllerVision.get_mask` from `quiz_controller_vision.py`,
the older duplicate variant with hard-coded constants. -/
def QuizControllerVision.get_mask (cv : CV Pix FMat Contour)
    (image : Mat Pix) : Option (Mat ℕ) :=
  let gris := cv.cvtColorGray image
  let flou := cv.gaussianBlur gris (5, 5) 0
  let gx := cv.sobel flou CV_32F 1 0
  let gy := cv.sobel flou CV_32F 0 1
  let mag_norm := cv.normalize (cv.sqrtMagnitude gx gy) 0 255
  let seuil := thresholdBinary mag_norm 50 255
  let kernel := npOnes (7, 7)
  let fermeture := cv.morphologyEx seuil MORPH_CLOSE kernel
  let contours := cv.findContours fermeture
  match pyMaxBy cv.contourArea contours with
  | none => none
  | some c =>
    if (5000 : ℚ) < cv.contourArea c then
      some (cv.drawContoursFill (zerosLike gris) c 255)
    else none

/-- `cv2.inRange(hsv_img, lower, upper)`: `255` where every channel
lies within the inclusive bounds, `0` elsewhere. -/
def inRange (hsv_img : Mat (ℕ × ℕ × ℕ)) (lower upper : ℕ × ℕ × ℕ) : Mat ℕ :=
  hsv_img.map fun row => row.map fun p =>
    if lower.1 ≤ p.1 ∧ p.1 ≤ upper.1 ∧
       lower.2.1 ≤ p.2.1 ∧ p.2.1 ≤ upper.2.1 ∧
       lower.2.2 ≤ p.2.2 ∧ p.2.2 ≤ upper.2.2 then 255 else 0

/-- `cv2.addWeighted(m1, 1.0, m2, 1.0, 0)` on `uint8` masks:
pixel-wise saturating addition. -/
def addWeighted11 (m1 m2 : Mat ℕ) : Mat ℕ :=
  List.zipWith (fun r1 r2 => List.zipWith (fun a b => min 255 (a + b)) r1 r2)
    m1 m2

/-- `compute_color_surface` from `cv_utils.py`. -/
def compute_color_surface (cv : CV Pix FMat Contour)
    (hsv_img : Mat (ℕ × ℕ × ℕ)) (color : ColorRange) (blur_ksize : ℕ) : ℕ :=
  npSum (cv.medianBlur (inRange hsv_img color.lower color.upper) blur_ksize)

/-- `compute_red_surface` from `cv_utils.py`. -/
def compute_red_surface (cv : CV Pix FMat Contour)
    (hsv_img : Mat (ℕ × ℕ × ℕ)) (red1 red2 : ColorRange)
    (blur_ksize : ℕ) : ℕ :=
  let mask1 := inRange hsv_img red1.lower red1.upper
  let mask2 := inRange hsv_img red2.lower red2.upper
  npSum (cv.medianBlur (addWeighted11 mask1 mask2) blur_ksize)

/-- `cv2.bitwise_and(hsv, hsv, mask=sign_mask)`: keep the pixel where
the mask is non-zero, zero elsewhere. -/
def bitwiseAndMask (hsv : Mat (ℕ × ℕ × ℕ)) (mask : Mat ℕ) :
    Mat (ℕ × ℕ × ℕ) :=
  List.zipWith
    (fun row mrow =>
      List.zipWith (fun p mp => if mp ≠ 0 then p else (0, 0, 0)) row mrow)
    hsv mask

/-- The surface scores `detect_color` computes for a given sign mask:
one detector result per candidate among the first `n_opts`
(`color_detectors[:n_opts]`). -/
def detectSurfaces (cv : CV Pix FMat Contour) (roi : Mat Pix) (n_opts : ℕ)
    (color_detectors : List (String × (Mat (ℕ × ℕ × ℕ) → ℕ)))
    (sign_mask : Mat ℕ) : List ℕ :=
  (color_detectors.take n_opts).map fun d =>
    d.2 (bitwiseAndMask (cv.cvtColorHSV roi) sign_mask)

/-- `QuizControllerCVCLI.detect_color`.  `Except.error ()` models the
uncaught Python exception: `max()` on an empty sequence raises
`ValueError`. -/
def detect_color (cv : CV Pix FMat Contour) (roi : Mat Pix) (n_opts : ℕ)
    (color_detectors : List (String × (Mat (ℕ × ℕ × ℕ) → ℕ)))
    (mask_config : MaskConfig) (min_color_area : ℕ) :
    Except Unit (Option ℕ) :=
  match get_sign_mask cv roi mask_config with
  | none => .ok none
  | some sign_mask =>
    let surfaces := detectSurfaces cv roi n_opts color_detectors sign_mask
    match pyMax surfaces with
    | none => .error ()
    | some max_surface =>
      if max_surface ≤ min_color_area then .ok none
      else .ok (some (pyIndex max_surface surfaces))

/-- The `color_detectors` list built in `QuizControllerCVCLI.run_quiz`. -/
def color_detectors (cv : CV Pix FMat Contour)
    (colors : ColorDetectionConfig) :
    List (String × (Mat (ℕ × ℕ × ℕ) → ℕ)) :=
  [("Green", fun img =>
      compute_color_surface cv img colors.green colors.blur_small_sign),
   ("Red", fun img =>
      compute_red_surface cv img colors.red1 colors.red2
        colors.blur_small_sign),
   ("Yellow", fun img =>
      compute_color_surface cv img colors.yellow colors.blur_small_sign),
   ("Blue", fun img =>
      compute_color_surface cv img colors.blue colors.blur_small_sign),
   ("Magenta", fun img =>
      compute_color_surface cv img colors.magenta colors.blur_small_sign)]

/-- A small concrete instantiation of the OpenCV primitives, used to
evaluate the pipeline on explicit inputs: grayscale conversion is the
identity, blurs and morphology are the identity, the HSV conversion
sends an intensity `p` to hue `p` with saturation 150 and value 100,
contour extraction always finds one contour of area 6000, and filling a
contour paints the whole mask. -/
def cvTriv : CV ℕ (Mat ℕ) ℕ where
  cvtColorGray := fun m => m
  cvtColorHSV := fun m => m.map fun row => row.map fun p => (p, 150, 100)
  gaussianBlur := fun m _ _ => m
  sobel := fun m _ _ _ => m
  sqrtMagnitude := fun gx _ => gx
  normalize := fun m _ _ => m
  morphologyEx := fun m _ _ => m
  findContours := fun _ => [0]
  contourArea := fun _ => 6000
  drawContoursFill := fun m _ v => m.map fun row => row.map fun _ => v
  medianBlur := fun m _ => m

theorem pyMaxBy_eq_none {α : Type} (f : α → ℚ) (l : List α) :
    pyMaxBy f l = none ↔ l = [] := by
  cases l <;> simp [pyMaxBy]

theorem foldl_champion_mem {α : Type} (f : α → ℚ) :
    ∀ (xs : List α) (x : α),
      xs.foldl (fun best y => if f best < f y then y else best) x ∈ x :: xs := by
  intro xs
  induction xs with
  | nil => intro x; simp
  | cons y ys ih =>
    intro x
    show List.foldl _ (if f x < f y then y else x) ys ∈ x :: y :: ys
    by_cases h : f x < f y
    · rw [if_pos h]
      exact List.mem_cons_of_mem x (ih y)
    · rw [if_neg h]
      rcases List.mem_cons.mp (ih x) with heq | hmem
      · rw [heq]; exact List.mem_cons_self x (y :: ys)
      · exact List.mem_cons_of_mem x (List.mem_cons_of_mem y hmem)

theorem foldl_champion_le {α : Type} (f : α → ℚ) :
    ∀ (xs : List α) (x z : α), z ∈ x :: xs →
      f z ≤ f (xs.foldl (fun best y => if f best < f y then y else best) x) := by
  intro xs
  induction xs with
  | nil =>
    intro x z hz
    rcases List.mem_cons.mp hz with rfl | h
    · exact le_refl _
    · simp at h
  | cons y ys ih =>
    intro x z hz
    show f z ≤ f (List.foldl _ (if f x < f y then y else x) ys)
    have hx2 : f x ≤ f (if f x < f y then y else x) := by
      by_cases h : f x < f y
      · rw [if_pos h]; exact h.le
      · rw [if_neg h]
    have hy2 : f y ≤ f (if f x < f y then y else x) := by
      by_cases h : f x < f y
      · rw [if_pos h]
      · rw [if_neg h]; exact not_lt.mp h
    have htail := ih (if f x < f y then y else x)
    have hself := htail _ (List.mem_cons_self _ ys)
    rcases List.mem_cons.mp hz with rfl | hz2
    · exact le_trans hx2 hself
    · rcases List.mem_cons.mp hz2 with rfl | hz3
      · exact le_trans hy2 hself
      · exact htail z (List.mem_cons_of_mem _ hz3)

theorem pyMaxBy_mem {α : Type} (f : α → ℚ) (l : List α) (x : α)
    (h : pyMaxBy f l = some x) : x ∈ l := by
  cases l with
  | nil => exact absurd h (by simp [pyMaxBy])
  | cons a as =>
    rw [pyMaxBy] at h
    obtain rfl : _ = x := by injection h
    exact foldl_champion_mem f as a

theorem pyMaxBy_le {α : Type} (f : α → ℚ) (l : List α) (x : α)
    (h : pyMaxBy f l = some x) : ∀ z ∈ l, f z ≤ f x := by
  cases l with
  | nil => simp
  | cons a as =>
    rw [pyMaxBy] at h
    obtain rfl : _ = x := by injection h
    exact fun z hz => foldl_champion_le f as a z hz

theorem foldl_max_mem : ∀ (xs : List ℕ) (x : ℕ), xs.foldl max x ∈ x :: xs := by
  intro xs
  induction xs with
  | nil => intro x; simp
  | cons y ys ih =>
    intro x
    show List.foldl max (max x y) ys ∈ x :: y :: ys
    rcases List.mem_cons.mp (ih (max x y)) with heq | hmem
    · rcases max_choice x y with hm | hm
      · rw [heq, hm]; exact List.mem_cons_self x (y :: ys)
      · rw [heq, hm]
        exact List.mem_cons_of_mem x (List.mem_cons_self y ys)
    · exact List.mem_cons_of_mem x (List.mem_cons_of_mem y hmem)

theorem foldl_max_le :
    ∀ (xs : List ℕ) (x z : ℕ), z ∈ x :: xs → z ≤ xs.foldl max x := by
  intro xs
  induction xs with
  | nil =>
    intro x z hz
    rcases List.mem_cons.mp hz with rfl | h
    · exact le_refl _
    · simp at h
  | cons y ys ih =>
    intro x z hz
    show z ≤ List.foldl max (max x y) ys
    have hself := ih (max x y) (max x y) (List.mem_cons_self _ ys)
    rcases List.mem_cons.mp hz with rfl | hz2
    · exact le_trans (le_max_left z y) hself
    · rcases List.mem_cons.mp hz2 with rfl | hz3
      · exact le_trans (le_max_right x z) hself
      · exact ih (max x y) z (List.mem_cons_of_mem _ hz3)

theorem pyMax_mem (l : List ℕ) (m : ℕ) (h : pyMax l = some m) : m ∈ l := by
  cases l with
  | nil => exact absurd h (by simp [pyMax])
  | cons a as =>
    rw [pyMax] at h
    obtain rfl : _ = m := by injection h
    exact foldl_max_mem as a

theorem pyMax_le (l : List ℕ) (m : ℕ) (h : pyMax l = some m) :
    ∀ z ∈ l, z ≤ m := by
  cases l with
  | nil => simp
  | cons a as =>
    rw [pyMax] at h
    obtain rfl : _ = m := by injection h
    exact fun z hz => foldl_max_le as a z hz

theorem pyMax_isSome (l : List ℕ) (h : l ≠ []) : ∃ m, pyMax l = some m := by
  cases l with
  | nil => exact absurd rfl h
  | cons a as => exact ⟨as.foldl max a, rfl⟩

theorem pyIndex_get (l : List ℕ) (v : ℕ) (h : v ∈ l) :
    l.get? (pyIndex v l) = some v ∧
    ∀ j, j < pyIndex v l → l.get? j ≠ some v := by
  induction l with
  | nil => simp at h
  | cons x xs ih =>
    rw [pyIndex]
    by_cases hx : x = v
    · rw [if_pos hx]
      exact ⟨by rw [hx]; rfl, fun j hj => absurd hj (by simp)⟩
    · rw [if_neg hx]
      have hv : v ∈ xs := by
        rcases List.mem_cons.mp h with rfl | h2
        · exact absurd rfl hx
        · exact h2
      obtain ⟨h1, h2⟩ := ih hv
      refine ⟨h1, fun j hj => ?_⟩
      cases j with
      | zero => simpa using fun hxe => hx hxe
      | succ j2 =>
        have : j2 < pyIndex v xs := by omega
        exact h2 j2 this

theorem pyIndex_lt_length (l : List ℕ) (v : ℕ) (h : v ∈ l) :
    pyIndex v l < l.length := by
  induction l with
  | nil => simp at h
  | cons x xs ih =>
    rw [pyIndex]
    by_cases hx : x = v
    · rw [if_pos hx]; simp
    · rw [if_neg hx]
      have hv : v ∈ xs := by
        rcases List.mem_cons.mp h with rfl | h2
        · exact absurd rfl hx
        · exact h2
      simpa using ih hv

theorem matGet_map {α β : Type} (f : α → β) (m : Mat α) (i j : ℕ) :
    matGet (m.map fun row => row.map f) i j = (matGet m i j).map f := by
  unfold matGet
  rw [List.get?_map]
  cases m.get? i with
  | none => rfl
  | some row => simp [List.get?_map]

theorem matShape_map {α β : Type} (f : α → β) (m : Mat α) :
    matShape (m.map fun row => row.map f) = matShape m := by
  simp [matShape, List.map_map, Function.comp]

theorem matShape_zerosLike (m : Mat ℕ) :
    matShape (zerosLike m) = matShape m :=
  matShape_map _ m

/-- A mask is binary when every pixel is 0 or 255 (as the masks
produced by `cv2.inRange` and preserved by `cv2.medianBlur` and
saturating `cv2.addWeighted`). -/
def binaryMat (m : Mat ℕ) : Prop :=
  ∀ row ∈ m, ∀ p ∈ row, p = 0 ∨ p = 255

/-- The number of "on" (255) pixels of a mask. -/
def countOn (m : Mat ℕ) : ℕ :=
  (m.map fun row => row.countP fun p => decide (p = 255)).sum

theorem sum_binary_row (row : List ℕ) (h : ∀ p ∈ row, p = 0 ∨ p = 255) :
    row.sum = 255 * row.countP fun p => decide (p = 255) := by
  induction row with
  | nil => simp
  | cons p ps ih =>
    have hps := fun q hq => h q (List.mem_cons_of_mem p hq)
    rcases h p (List.mem_cons_self p ps) with rfl | rfl
    · simp [List.countP_cons, ih hps]
    · simp [List.countP_cons, ih hps]
      ring

theorem npSum_binary (m : Mat ℕ) (hb : binaryMat m) :
    npSum m = 255 * countOn m := by
  unfold npSum countOn
  induction m with
  | nil => simp
  | cons row rows ih =>
    have hrows : binaryMat rows :=
      fun r hr => hb r (List.mem_cons_of_mem row hr)
    simp only [List.map_cons, List.sum_cons]
    rw [sum_binary_row row (hb row (List.mem_cons_self row rows)), ih hrows]
    ring

theorem inRange_binary (hsv : Mat (ℕ × ℕ × ℕ)) (lo hi : ℕ × ℕ × ℕ) :
    binaryMat (inRange hsv lo hi) := by
  intro row hrow p hp
  obtain ⟨r0, _, rfl⟩ := List.mem_map.mp hrow
  obtain ⟨q, _, rfl⟩ := List.mem_map.mp hp
  split
  · right; rfl
  · left; rfl

theorem mem_zipWith {α β γ : Type} (f : α → β → γ) :
    ∀ (l1 : List α) (l2 : List β) (x : γ), x ∈ List.zipWith f l1 l2 →
      ∃ a b, a ∈ l1 ∧ b ∈ l2 ∧ x = f a b := by
  intro l1
  induction l1 with
  | nil => intro l2 x hx; simp at hx
  | cons a as ih =>
    intro l2 x hx
    cases l2 with
    | nil => simp at hx
    | cons b bs =>
      rw [List.zipWith_cons_cons] at hx
      rcases List.mem_cons.mp hx with rfl | hx2
      · exact ⟨a, b, List.mem_cons_self a as, List.mem_cons_self b bs, rfl⟩
      · obtain ⟨a2, b2, h1, h2, h3⟩ := ih bs x hx2
        exact ⟨a2, b2, List.mem_cons_of_mem a h1,
          List.mem_cons_of_mem b h2, h3⟩

theorem addWeighted11_binary (m1 m2 : Mat ℕ)
    (h1 : binaryMat m1) (h2 : binaryMat m2) :
    binaryMat (addWeighted11 m1 m2) := by
  intro row hrow p hp
  obtain ⟨r1, r2, hr1, hr2, rfl⟩ := mem_zipWith _ m1 m2 row hrow
  obtain ⟨a, b, ha, hb, rfl⟩ := mem_zipWith _ r1 r2 p hp
  rcases h1 r1 hr1 a ha with rfl | rfl <;>
    rcases h2 r2 hr2 b hb with rfl | rfl
  · left; rfl
  · right; rfl
  · right; rfl
  · right; rfl

/-- Claim C10: with the default configuration, the configurable mask
extractor `get_sign_mask(image, MaskConfig())` returns the same result
(the identical mask, or `None` in the same cases) as the older
duplicate `QuizControllerVision.get_mask(image)` with its hard-coded
constants, for every input image and every behaviour of the underlying
OpenCV primitives. -/
theorem get_sign_mask_default_eq_get_mask (cv : CV Pix FMat Contour)
    (image : Mat Pix) :
    get_sign_mask cv image MaskConfig.default
      = QuizControllerVision.get_mask cv image := by
  simp only [get_sign_mask, QuizControllerVision.get_mask, signContours,
    signClosing, signThreshold, signMagNorm, MaskConfig.default,
    Nat.cast_ofNat]
  cases hE : pyMaxBy cv.contourArea
      (cv.findContours
        (cv.morphologyEx
          (thresholdBinary
            (cv.normalize
              (cv.sqrtMagnitude
                (cv.sobel (cv.gaussianBlur (cv.cvtColorGray image) (5, 5) 0)
                  CV_32F 1 0)
                (cv.sobel (cv.gaussianBlur (cv.cvtColorGray image) (5, 5) 0)
                  CV_32F 0 1))
              0 255)
            50 255)
          MORPH_CLOSE (npOnes (7, 7)))) with
  | none => rfl
  | some c =>
    show (if cv.contourArea c ≤ (5000 : ℚ) then none
        else some (cv.drawContoursFill (zerosLike (cv.cvtColorGray image)) c 255))
      = if (5000 : ℚ) < cv.contourArea c
        then some (cv.drawContoursFill (zerosLike (cv.cvtColorGray image)) c 255)
        else none
    rcases le_or_lt (cv.contourArea c) 5000 with h | h
    · rw [if_pos h, if_neg (not_lt.mpr h)]
    · rw [if_neg (not_le.mpr h), if_pos h]

/-- Claim C5: `get_sign_mask` returns `None` exactly when the closed
edge image contains no contours or the maximum-area contour's area does
not exceed `min_contour_area`; otherwise it returns that single largest
contour rasterized, filled, into a binary mask of the same size as the
input.  Both outcomes are ordinary return values of a total function,
never an error.  (The hypotheses record that `cv2.cvtColor` and
`cv2.drawContours` are size-preserving.) -/
theorem get_sign_mask_spec (cv : CV Pix FMat Contour) (image : Mat Pix)
    (config : MaskConfig)
    (hgray : matShape (cv.cvtColorGray image) = matShape image)
    (hdraw : ∀ (m : Mat ℕ) (c : Contour) (v : ℕ),
      matShape (cv.drawContoursFill m c v) = matShape m) :
    (get_sign_mask cv image config = none ↔
      signContours cv image config = [] ∨
      ∃ largest, pyMaxBy cv.contourArea (signContours cv image config)
          = some largest ∧
        cv.contourArea largest ≤ (config.min_contour_area : ℚ)) ∧
    (∀ mask, get_sign_mask cv image config = some mask →
      ∃ largest, pyMaxBy cv.contourArea (signContours cv image config)
          = some largest ∧
        largest ∈ signContours cv image config ∧
        (∀ c ∈ signContours cv image config,
          cv.contourArea c ≤ cv.contourArea largest) ∧
        (config.min_contour_area : ℚ) < cv.contourArea largest ∧
        mask = cv.drawContoursFill (zerosLike (cv.cvtColorGray image))
          largest config.max_binary_value ∧
        matShape mask = matShape image) := by
  cases hL : pyMaxBy cv.contourArea (signContours cv image config) with
  | none =>
    have hnone : get_sign_mask cv image config = none := by
      rw [get_sign_mask, hL]
    refine ⟨iff_of_true hnone (Or.inl ((pyMaxBy_eq_none _ _).mp hL)), ?_⟩
    intro mask hmask
    rw [hnone] at hmask
    exact absurd hmask (by simp)
  | some largest =>
    have hbody : get_sign_mask cv image config =
        if cv.contourArea largest ≤ (config.min_contour_area : ℚ) then none
        else some (cv.drawContoursFill (zerosLike (cv.cvtColorGray image))
          largest config.max_binary_value) := by
      rw [get_sign_mask, hL]
    refine ⟨?_, ?_⟩
    · by_cases harea : cv.contourArea largest ≤ (config.min_contour_area : ℚ)
      · exact iff_of_true (by rw [hbody, if_pos harea])
          (Or.inr ⟨largest, rfl, harea⟩)
      · refine iff_of_false (by rw [hbody, if_neg harea]; simp) ?_
        rintro (hnil | ⟨l2, hl2, harea2⟩)
        · rw [hnil] at hL
          exact absurd hL (by simp [pyMaxBy])
        · obtain rfl : largest = l2 := by injection hl2
          exact harea harea2
    · intro mask hmask
      rw [hbody] at hmask
      by_cases harea : cv.contourArea largest ≤ (config.min_contour_area : ℚ)
      · rw [if_pos harea] at hmask
        exact absurd hmask (by simp)
      · rw [if_neg harea] at hmask
        have hm : cv.drawContoursFill (zerosLike (cv.cvtColorGray image))
            largest config.max_binary_value = mask := by injection hmask
        refine ⟨largest, rfl, pyMaxBy_mem _ _ _ hL, pyMaxBy_le _ _ _ hL,
          not_le.mp harea, hm.symm, ?_⟩
        rw [← hm, hdraw, matShape_zerosLike, hgray]

/-- Witness for C5: on a one-pixel image whose (trivial) contour has
area 6000 against the default floor 5000, the returned mask is the
rasterized contour and has the input's size. -/
theorem get_sign_mask_spec_witness :
    get_sign_mask cvTriv [[1]] MaskConfig.default = some [[255]] ∧
    matShape ([[255]] : Mat ℕ) = matShape ([[1]] : Mat ℕ) := by
  have h255 : get_sign_mask cvTriv [[1]] MaskConfig.default = some [[255]] := by
    decide
  obtain ⟨l, hmax, hmem, hle, hfloor, hmask, hshape⟩ :=
    (get_sign_mask_spec cvTriv [[1]] MaskConfig.default rfl
      (fun m c v => matShape_map _ m)).2 [[255]] h255
  exact ⟨h255, hshape⟩

/-- Primitives for the C6 boundary analysis: the normalized gradient
image is the single pixel 50, exactly the default `edge_threshold`. -/
def cvAt50 : CV ℕ (Mat ℕ) ℕ :=
  { cvTriv with normalize := fun _ _ _ => [[50]] }

/-- Counterexample to C6 as stated: a normalized-gradient pixel exactly
equal to `edge_threshold` (50) is mapped to 0 ("off"), not to
`max_binary_value`, because `cv2.THRESH_BINARY` keeps only pixels
strictly above the threshold. -/
theorem signThreshold_at_threshold_counterexample :
    MaskConfig.default.edge_threshold = 50 ∧
    MaskConfig.default.max_binary_value = 255 ∧
    signMagNorm cvAt50 [[0]] MaskConfig.default = [[50]] ∧
    signThreshold cvAt50 [[0]] MaskConfig.default = [[0]] := by decide

/-- Claim C6, amended: in `get_sign_mask`'s binarization step, a pixel
of the normalized gradient-magnitude image becomes "on"
(`max_binary_value`) exactly when its value is strictly above
`edge_threshold`, and "off" (0) when it is at or below it. -/
theorem signThreshold_pixels (cv : CV Pix FMat Contour) (image : Mat Pix)
    (config : MaskConfig) (i j p : ℕ)
    (hp : matGet (signMagNorm cv image config) i j = some p) :
    matGet (signThreshold cv image config) i j
      = some (if config.edge_threshold < p
          then config.max_binary_value else 0) := by
  rw [signThreshold, thresholdBinary, matGet_map, hp]
  rfl

/-- Primitives for the C6 witness: the normalized gradient image is the
single pixel 51, one unit above the default `edge_threshold`. -/
def cvAt51 : CV ℕ (Mat ℕ) ℕ :=
  { cvTriv with normalize := fun _ _ _ => [[51]] }

/-- Witness for C6 (amended): one unit above the threshold the pixel is
mapped to `max_binary_value`. -/
theorem signThreshold_pixels_witness :
    matGet (signThreshold cvAt51 [[0]] MaskConfig.default) 0 0
      = some (if MaskConfig.default.edge_threshold < 51
          then MaskConfig.default.max_binary_value else 0) :=
  signThreshold_pixels cvAt51 [[0]] MaskConfig.default 0 0 51 (by decide)

/-- Counterexample to C7 as stated: a one-pixel HSV image matching the
default green range scores 255, not 1, although exactly one pixel
matches the range after the (identity, on this input) median blur:
`np.sum` adds the 0/255 mask intensities, not a pixel count. -/
theorem surface_not_pixel_count_counterexample :
    compute_color_surface cvTriv [[(50, 150, 100)]]
        ColorDetectionConfig.default.green
        ColorDetectionConfig.default.blur_small_sign = 255 ∧
    countOn (cvTriv.medianBlur
        (inRange [[(50, 150, 100)]] ColorDetectionConfig.default.green.lower
          ColorDetectionConfig.default.green.upper)
        ColorDetectionConfig.default.blur_small_sign) = 1 ∧
    (255 : ℕ) ≠ 1 := by decide

/-- Claim C7, amended: as long as the median blur maps 0/255 masks to
0/255 masks (cv2.medianBlur computes a neighbourhood median, which
preserves binary images), a candidate's surface score equals 255 times
the count of pixels matching the candidate's HSV range — respectively
either of the two red ranges, merged by saturating addition — after the
median-blur denoising step. -/
theorem surface_eq_255_mul_count (cv : CV Pix FMat Contour)
    (hsv_img : Mat (ℕ × ℕ × ℕ)) (color red1 red2 : ColorRange) (k : ℕ)
    (hblur : ∀ m, binaryMat m → binaryMat (cv.medianBlur m k)) :
    compute_color_surface cv hsv_img color k
      = 255 * countOn (cv.medianBlur
          (inRange hsv_img color.lower color.upper) k) ∧
    compute_red_surface cv hsv_img red1 red2 k
      = 255 * countOn (cv.medianBlur
          (addWeighted11 (inRange hsv_img red1.lower red1.upper)
            (inRange hsv_img red2.lower red2.upper)) k) := by
  constructor
  · exact npSum_binary _ (hblur _ (inRange_binary hsv_img _ _))
  · exact npSum_binary _ (hblur _
      (addWeighted11_binary _ _ (inRange_binary hsv_img _ _)
        (inRange_binary hsv_img _ _)))

/-- Witness for C7 (amended): the green score of a one-pixel matching
image is 255 times its on-pixel count. -/
theorem surface_eq_255_mul_count_witness :
    compute_color_surface cvTriv [[(50, 150, 100)]]
        ColorDetectionConfig.default.green 15
      = 255 * countOn (cvTriv.medianBlur
          (inRange [[(50, 150, 100)]] ColorDetectionConfig.default.green.lower
            ColorDetectionConfig.default.green.upper) 15) :=
  (surface_eq_255_mul_count cvTriv [[(50, 150, 100)]]
      ColorDetectionConfig.default.green ColorDetectionConfig.default.red1
      ColorDetectionConfig.default.red2 15 (fun _ hm => hm)).1

/-- Counterexample to C3 as stated: when a sign mask is present and no
candidates are configured (`n_opts = 0`), `detect_color` does not
return "no detection" — `max(surfaces)` raises `ValueError` on the
empty list of surfaces. -/
theorem detect_color_zero_options_raises :
    detect_color cvTriv [[1]] 0 [] MaskConfig.default 30000 = .error () := by
  rfl

/-- Claim C3, amended: provided at least one candidate is evaluated
(`color_detectors[:n_opts]` non-empty), `detect_color` never throws,
and it returns `None` exactly when the sign mask is absent or the
maximum surface score is at most `min_color_area`; a maximum strictly
above the floor is accepted (strict `>` semantics).  When a mask is
present and no candidate is evaluated, it raises `ValueError` instead
of returning `None`. -/
theorem detect_color_spec (cv : CV Pix FMat Contour) (roi : Mat Pix)
    (n_opts : ℕ) (cds : List (String × (Mat (ℕ × ℕ × ℕ) → ℕ)))
    (mask_config : MaskConfig) (min_color_area : ℕ)
    (hne : cds.take n_opts ≠ []) :
    (∃ r, detect_color cv roi n_opts cds mask_config min_color_area
      = .ok r) ∧
    (detect_color cv roi n_opts cds mask_config min_color_area = .ok none ↔
      get_sign_mask cv roi mask_config = none ∨
      ∃ sign_mask max_surface,
        get_sign_mask cv roi mask_config = some sign_mask ∧
        pyMax (detectSurfaces cv roi n_opts cds sign_mask)
          = some max_surface ∧
        max_surface ≤ min_color_area) ∧
    (∀ sign_mask max_surface,
      get_sign_mask cv roi mask_config = some sign_mask →
      pyMax (detectSurfaces cv roi n_opts cds sign_mask) = some max_surface →
      min_color_area < max_surface →
      detect_color cv roi n_opts cds mask_config min_color_area
        = .ok (some (pyIndex max_surface
            (detectSurfaces cv roi n_opts cds sign_mask)))) := by
  cases hm : get_sign_mask cv roi mask_config with
  | none =>
    have hok : detect_color cv roi n_opts cds mask_config min_color_area
        = .ok none := by
      rw [detect_color, hm]
    refine ⟨⟨none, hok⟩, iff_of_true hok (Or.inl rfl), ?_⟩
    intro sign_mask max_surface hsm
    exact absurd hsm (by simp)
  | some sm =>
    have hsne : detectSurfaces cv roi n_opts cds sm ≠ [] := by
      rw [detectSurfaces]
      intro hnil
      exact hne (List.map_eq_nil_iff.mp hnil)
    obtain ⟨ms, hms⟩ := pyMax_isSome _ hsne
    have hbody : detect_color cv roi n_opts cds mask_config min_color_area
        = if ms ≤ min_color_area then .ok none
          else .ok (some (pyIndex ms (detectSurfaces cv roi n_opts cds sm))) := by
      rw [detect_color, hm]
      simp only [hms]
    refine ⟨?_, ?_, ?_⟩
    · by_cases h : ms ≤ min_color_area
      · exact ⟨none, by rw [hbody, if_pos h]⟩
      · exact ⟨some (pyIndex ms (detectSurfaces cv roi n_opts cds sm)),
          by rw [hbody, if_neg h]⟩
    · by_cases h : ms ≤ min_color_area
      · exact iff_of_true (by rw [hbody, if_pos h])
          (Or.inr ⟨sm, ms, rfl, hms, h⟩)
      · refine iff_of_false (by rw [hbody, if_neg h]; simp) ?_
        rintro (hc | ⟨sm2, ms2, hsm2, hms2, hle2⟩)
        · exact absurd hc (by simp)
        · obtain rfl : sm = sm2 := by injection hsm2
          rw [hms] at hms2
          obtain rfl : ms = ms2 := by injection hms2
          exact h hle2
    · intro sm2 ms2 hsm2 hms2 hfloor
      obtain rfl : sm = sm2 := by injection hsm2
      rw [hms] at hms2
      obtain rfl : ms = ms2 := by injection hms2
      rw [hbody, if_neg (not_le.mpr hfloor)]

/-- A constant color detector used by the witnesses. -/
def fortyK : Mat (ℕ × ℕ × ℕ) → ℕ := fun _ => 40000

/-- Witness for C3 (amended): one candidate scoring 40000 against the
floor 30000 is accepted. -/
theorem detect_color_spec_witness :
    detect_color cvTriv [[1]] 1 [("Green", fortyK)] MaskConfig.default 30000
      = .ok (some (pyIndex 40000
          (detectSurfaces cvTriv [[1]] 1 [("Green", fortyK)] [[255]]))) :=
  (detect_color_spec cvTriv [[1]] 1 [("Green", fortyK)] MaskConfig.default
      30000 (by simp)).2.2 [[255]] 40000 (by decide) (by decide) (by decide)

/-- Claim C4: when the maximum surface score is above the floor, the
index `detect_color` returns is the first (lowest) index whose score
equals the maximum; in particular, exact ties on the maximal score are
always resolved toward the lowest index. -/
theorem detect_color_tie_break (cv : CV Pix FMat Contour) (roi : Mat Pix)
    (n_opts : ℕ) (cds : List (String × (Mat (ℕ × ℕ × ℕ) → ℕ)))
    (mask_config : MaskConfig) (min_color_area : ℕ)
    (sign_mask : Mat ℕ) (max_surface : ℕ)
    (hm : get_sign_mask cv roi mask_config = some sign_mask)
    (hmax : pyMax (detectSurfaces cv roi n_opts cds sign_mask)
      = some max_surface)
    (hfloor : min_color_area < max_surface) :
    detect_color cv roi n_opts cds mask_config min_color_area
      = .ok (some (pyIndex max_surface
          (detectSurfaces cv roi n_opts cds sign_mask))) ∧
    (detectSurfaces cv roi n_opts cds sign_mask).get?
        (pyIndex max_surface (detectSurfaces cv roi n_opts cds sign_mask))
      = some max_surface ∧
    (∀ s ∈ detectSurfaces cv roi n_opts cds sign_mask, s ≤ max_surface) ∧
    (∀ j, j < pyIndex max_surface (detectSurfaces cv roi n_opts cds sign_mask) →
      (detectSurfaces cv roi n_opts cds sign_mask).get? j
        ≠ some max_surface) := by
  have hmem := pyMax_mem _ _ hmax
  obtain ⟨h1, h2⟩ := pyIndex_get _ _ hmem
  refine ⟨?_, h1, pyMax_le _ _ hmax, h2⟩
  rw [detect_color, hm]
  simp only [hmax]
  rw [if_neg (not_le.mpr hfloor)]

/-- Witness for C4: two candidates tied at 40000 above the floor; the
returned index is 0, the lower of the two. -/
theorem detect_color_tie_break_witness :
    detect_color cvTriv [[1]] 2 [("Green", fortyK), ("Red", fortyK)]
        MaskConfig.default 30000 = .ok (some 0) ∧
    (detectSurfaces cvTriv [[1]] 2 [("Green", fortyK), ("Red", fortyK)]
        [[255]]).get? 0 = some 40000 := by
  have h := detect_color_tie_break cvTriv [[1]] 2
    [("Green", fortyK), ("Red", fortyK)] MaskConfig.default 30000
    [[255]] 40000 (by decide) (by decide) (by decide)
  exact ⟨h.1, h.2.1⟩

/-- Claim C8: `detect_color` evaluates only the first `n_opts`
candidates — its result is unchanged when the detectors beyond
`n_opts` are replaced — and every returned index is strictly below
`n_opts`. -/
theorem detect_color_respects_n_opts (cv : CV Pix FMat Contour)
    (roi : Mat Pix) (n_opts : ℕ)
    (cds1 cds2 : List (String × (Mat (ℕ × ℕ × ℕ) → ℕ)))
    (mask_config : MaskConfig) (min_color_area : ℕ)
    (h12 : cds1.take n_opts = cds2.take n_opts) :
    detect_color cv roi n_opts cds1 mask_config min_color_area
      = detect_color cv roi n_opts cds2 mask_config min_color_area ∧
    ∀ i, detect_color cv roi n_opts cds1 mask_config min_color_area
        = .ok (some i) → i < n_opts := by
  have hsurf : ∀ m, detectSurfaces cv roi n_opts cds1 m
      = detectSurfaces cv roi n_opts cds2 m := by
    intro m
    rw [detectSurfaces, detectSurfaces, h12]
  constructor
  · simp only [detect_color, hsurf]
  · intro i hi
    cases hm : get_sign_mask cv roi mask_config with
    | none =>
      simp only [detect_color, hm] at hi
      exact absurd hi (by simp)
    | some sm =>
      simp only [detect_color, hm] at hi
      cases hms : pyMax (detectSurfaces cv roi n_opts cds1 sm) with
      | none =>
        simp only [hms] at hi
        exact absurd hi (by simp)
      | some ms =>
        simp only [hms] at hi
        by_cases h : ms ≤ min_color_area
        · rw [if_pos h] at hi
          exact absurd hi (by simp)
        · rw [if_neg h] at hi
          have hieq : pyIndex ms (detectSurfaces cv roi n_opts cds1 sm) = i := by
            injection hi with h2
            injection h2
          have hlt := pyIndex_lt_length _ _ (pyMax_mem _ _ hms)
          rw [hieq] at hlt
          calc i < (detectSurfaces cv roi n_opts cds1 sm).length := hlt
            _ ≤ n_opts := by
              rw [detectSurfaces, List.length_map, List.length_take]
              exact min_le_left _ _

/-- Witness for C8: the real five-detector list of `run_quiz` extended
with a sixth detector gives the same answer with `n_opts = 5`, and the
returned index 0 is below 5. -/
theorem detect_color_respects_n_opts_witness :
    detect_color cvTriv [[50]] 5
        (color_detectors cvTriv ColorDetectionConfig.default)
        MaskConfig.default 100
      = detect_color cvTriv [[50]] 5
          (color_detectors cvTriv ColorDetectionConfig.default
            ++ [("Extra", fortyK)])
          MaskConfig.default 100 ∧
    (0 : ℕ) < 5 := by
  have h := detect_color_respects_n_opts cvTriv [[50]] 5
    (color_detectors cvTriv ColorDetectionConfig.default)
    (color_detectors cvTriv ColorDetectionConfig.default
      ++ [("Extra", fortyK)])
    MaskConfig.default 100 rfl
  exact ⟨h.1, h.2 0 (by rfl)⟩

end RaiseYourSign
